import Mathlib

/-!
Shallow embedding of the batch-analysis / response-normalization pipeline of
`src/risk_assessment/analyze_clauses.py`.

Python values that can flow through the parsed model response are modelled by
the inductive `JValue` (JSON values as produced by `json.loads`, with integer
numerics; no float appears in any property under study).  Pure Python string
operations (`re.sub(r"\s+", " ", .)`, `.strip()`, `.lower()`, `.split()`,
`re.search(r"\d{1,3}", .)`) are modelled by structurally recursive functions on
`List Char` so that every definition evaluates by kernel reduction.

The Groq chat call and the textual JSON decoding are external to the
repository; they are abstracted by an oracle giving, for each batch call and
each attempt, either a raised request (`fail`) or returned content together
with the outcome of `safe_json_parse`'s decoding chain (`success p` with
`p : Option JValue`; `none` means both `json.loads` and the bracketed-substring
extraction failed, in which case the code degrades to the empty list).
-/

inductive JValue where
  | null
  | bool (b : Bool)
  | num (n : Int)
  | str (s : String)
  | arr (elems : List JValue)
  | obj (fields : List (String × JValue))

/-- Python truthiness of a decoded JSON value. -/
def pyTruthy : JValue → Bool
  | .null => false
  | .bool b => b
  | .num n => n != 0
  | .str s => s != ""
  | .arr xs => !xs.isEmpty
  | .obj kvs => !kvs.isEmpty

/-- Python `v == lit` for a string literal `lit`: true only for an equal string. -/
def pyEqStr (v : JValue) (lit : String) : Bool :=
  match v with
  | .str s => s == lit
  | _ => false

/-- The single-quote character used by Python `repr` of nested strings. -/
def squote : String := String.singleton (Char.ofNat 39)

mutual
/-- Python `repr` of a decoded JSON value (escape sequences inside nested
strings are not reproduced; no claim exercises them). -/
def pyRepr : JValue → String
  | .null => "None"
  | .bool true => "True"
  | .bool false => "False"
  | .num n => toString n
  | .str s => squote ++ s ++ squote
  | .arr xs => "[" ++ pyReprList xs ++ "]"
  | .obj kvs => "\x7b" ++ pyReprFields kvs ++ "\x7d"

def pyReprList : List JValue → String
  | [] => ""
  | [x] => pyRepr x
  | x :: xs => pyRepr x ++ ", " ++ pyReprList xs

def pyReprFields : List (String × JValue) → String
  | [] => ""
  | [kv] => squote ++ kv.1 ++ squote ++ ": " ++ pyRepr kv.2
  | kv :: kvs => squote ++ kv.1 ++ squote ++ ": " ++ pyRepr kv.2 ++ ", " ++ pyReprFields kvs
end

/-- Python `str` of a decoded JSON value (a top-level string prints bare). -/
def pyStr : JValue → String
  | .str s => s
  | v => pyRepr v

/-- One pass of `re.sub(r"\s+", " ", _)`: each maximal whitespace run becomes
one space.  The flag records whether the previous character was whitespace. -/
def collapseWsAux : Bool → List Char → List Char
  | _, [] => []
  | prevWs, c :: rest =>
    if c.isWhitespace then
      if prevWs then collapseWsAux true rest
      else ' ' :: collapseWsAux true rest
    else c :: collapseWsAux false rest

def collapseWs (l : List Char) : List Char := collapseWsAux false l

/-- Python `str.strip()`. -/
def trimChars (l : List Char) : List Char :=
  ((l.dropWhile Char.isWhitespace).reverse.dropWhile Char.isWhitespace).reverse

/-- `clean_clause_text`: collapse whitespace runs to single spaces, then strip. -/
def clean_clause_text (text : String) : String :=
  String.mk (trimChars (collapseWs text.data))

/-- Number of words of Python `str.split()` (maximal non-whitespace runs). -/
def wordCountAux : Bool → List Char → Nat
  | _, [] => 0
  | inWord, c :: rest =>
    if c.isWhitespace then wordCountAux false rest
    else if inWord then wordCountAux true rest
    else 1 + wordCountAux true rest

def pyWordCount (s : String) : Nat := wordCountAux false s.data

def lowerChars (l : List Char) : List Char := l.map Char.toLower

def listIsPrefixOfCh : List Char → List Char → Bool
  | [], _ => true
  | _ :: _, [] => false
  | a :: as, b :: bs => a == b && listIsPrefixOfCh as bs

/-- Python `needle in hay` on strings, as character lists. -/
def listHasSub (needle : List Char) : List Char → Bool
  | [] => listIsPrefixOfCh needle []
  | c :: rest => listIsPrefixOfCh needle (c :: rest) || listHasSub needle rest

/-- `re.search(r"\d{1,3}", s)`: the first (up to three) consecutive digits. -/
def firstDigits : List Char → Option (List Char)
  | [] => none
  | c :: rest =>
    if c.isDigit then some ((c :: rest.takeWhile Char.isDigit).take 3)
    else firstDigits rest

def digitsToNat (ds : List Char) : Nat :=
  ds.foldl (fun a c => a * 10 + (c.toNat - 48)) 0

/-- `normalize_risk_score`: `None` gives "0%"; otherwise the first run of one
to three digits of the stringified input, clamped to [0,100], formatted with a
trailing percent sign; "0%" when no digit occurs. -/
def normalize_risk_score (score : JValue) : String :=
  match score with
  | .null => "0%"
  | _ =>
    let s := trimChars (pyStr score).data
    match firstDigits s with
    | none => "0%"
    | some ds =>
      let val : Int := max 0 (min 100 (Int.ofNat (digitsToNat ds)))
      toString val ++ "%"

/-- The stripped, lower-cased rendering a risk level is matched against. -/
def rlKey (level : JValue) : List Char := lowerChars (trimChars (pyStr level).data)

/-- `normalize_risk_level`: `None`/blank gives "Unknown"; otherwise keyword
substring match on "high"/"med"/"low" in priority order; otherwise the numeric
heuristic on the first one-to-three-digit run; otherwise "Unknown". -/
def normalize_risk_level (level : JValue) : String :=
  match level with
  | .null => "Unknown"
  | _ =>
    let s := rlKey level
    if s.isEmpty then "Unknown"
    else if listHasSub "high".data s then "High"
    else if listHasSub "med".data s then "Medium"
    else if listHasSub "low".data s then "Low"
    else
      match firstDigits s with
      | some ds =>
        let v := digitsToNat ds
        if 70 ≤ v then "High"
        else if 40 ≤ v then "Medium"
        else "Low"
      | none => "Unknown"

def junk_patterns : List String :=
  ["Table of Contents", "Exhibit", "Signature", "Page", "Schedule", "Index"]

/-- `is_valid_clause`: rejects empty text, text with fewer than five words, and
text containing a junk phrase case-insensitively. -/
def is_valid_clause (clause : String) : Bool :=
  if clause == "" || pyWordCount clause < 5 then false
  else if junk_patterns.any (fun j => listHasSub (lowerChars j.data) (lowerChars clause.data)) then false
  else true

/-! ## The output record and `normalize_result` -/

def FEEDBACK_SENTINEL : String := "No feedback or recommendation available."

def AIMOD_SENTINEL : String := "No AI-modified clause available."

/-- One output record.  "Risk Level", "Risk Score" and "AI-Modified Risk
Level" are always written through their normalizers and hence are strings; the
remaining fields can be overwritten by the model with arbitrary JSON values
(the code keeps a non-string value as-is). -/
structure ClauseRecord where
  clauseID : JValue
  contractClause : JValue
  regulation : JValue
  riskLevel : String
  riskScore : String
  clauseIdentification : JValue
  clauseFeedbackFix : JValue
  aiModifiedClause : JValue
  aiModifiedRiskLevel : String

/-- The `base` dictionary of `normalize_result` before the field overlay. -/
def baseRecord (cid : Int) (cl : String) : ClauseRecord :=
  { clauseID := .num cid
    contractClause := .str (clean_clause_text cl)
    regulation := .str "Unknown"
    riskLevel := "Unknown"
    riskScore := "0%"
    clauseIdentification := .str "Unknown"
    clauseFeedbackFix := .str FEEDBACK_SENTINEL
    aiModifiedClause := .str AIMOD_SENTINEL
    aiModifiedRiskLevel := "Unknown" }

/-- Free-text fields pass through `clean_clause_text` when they are strings
and are kept as-is otherwise. -/
def cleanIfStr : JValue → JValue
  | .str s => .str (clean_clause_text s)
  | v => v

/-- The "AI-Modified Risk Level" write: normalize, then coerce High to Medium. -/
def coerceAiMod (v : JValue) : String :=
  let norm := normalize_risk_level v
  if norm == "High" then "Medium" else norm

/-- One `base[k] = ...` assignment of the overlay loop; keys outside
`ALLOWED_FIELDS` are dropped. -/
def applyField (r : ClauseRecord) (key : String) (v : JValue) : ClauseRecord :=
  if key == "Risk Score" then { r with riskScore := normalize_risk_score v }
  else if key == "Risk Level" then { r with riskLevel := normalize_risk_level v }
  else if key == "AI-Modified Risk Level" then { r with aiModifiedRiskLevel := coerceAiMod v }
  else if key == "Clause ID" then { r with clauseID := cleanIfStr v }
  else if key == "Contract Clause" then { r with contractClause := cleanIfStr v }
  else if key == "Regulation" then { r with regulation := cleanIfStr v }
  else if key == "Clause Identification" then { r with clauseIdentification := cleanIfStr v }
  else if key == "Clause Feedback & Fix" then { r with clauseFeedbackFix := cleanIfStr v }
  else if key == "AI-Modified Clause" then { r with aiModifiedClause := cleanIfStr v }
  else r

/-- `parsed[i] if isinstance(parsed, list) and i < len(parsed) else {}`. -/
def elemAt (parsed : JValue) (i : Nat) : JValue :=
  match parsed with
  | .arr xs =>
    match xs.get? i with
    | some v => v
    | none => .obj []
  | _ => .obj []

/-- `base` after the overlay loop (skipped entirely when the element paired
with the clause is not a JSON object). -/
def overlayRecord (parsed : JValue) (i : Nat) (cl : String) (start_id : Int) : ClauseRecord :=
  let r := baseRecord (start_id + Int.ofNat i) cl
  match elemAt parsed i with
  | .obj kvs => kvs.foldl (fun acc kv => applyField acc kv.1 kv.2) r
  | _ => r

/-- The post-overlay fallback inference for "AI-Modified Risk Level". -/
def inferAiMod (r : ClauseRecord) : ClauseRecord :=
  if r.aiModifiedRiskLevel == "Unknown" then
    if pyTruthy r.aiModifiedClause && !(pyEqStr r.aiModifiedClause AIMOD_SENTINEL) then
      if r.riskLevel == "High" then { r with aiModifiedRiskLevel := "Medium" }
      else if r.riskLevel == "Medium" then { r with aiModifiedRiskLevel := "Low" }
      else if r.riskLevel == "Low" then { r with aiModifiedRiskLevel := "Low" }
      else { r with aiModifiedRiskLevel := "Medium" }
    else r
  else r

/-- The record `normalize_result` appends for the `i`-th clause. -/
def buildRecord (parsed : JValue) (i : Nat) (cl : String) (start_id : Int) : ClauseRecord :=
  inferAiMod (overlayRecord parsed i cl start_id)

/-- The `for i, cl in enumerate(clauses)` loop: invalid clauses are skipped but
still consume their index. -/
def normalizeAux (parsed : JValue) (start_id : Int) : Nat → List String → List ClauseRecord
  | _, [] => []
  | i, cl :: rest =>
    if is_valid_clause cl then
      buildRecord parsed i cl start_id :: normalizeAux parsed start_id (i + 1) rest
    else normalizeAux parsed start_id (i + 1) rest

def normalize_result (parsed : JValue) (clauses : List String) (start_id : Int) :
    List ClauseRecord :=
  normalizeAux parsed start_id 0 clauses

/-! ## Batch analysis, reconciliation and the batching wrapper -/

/-- Outcome of one request attempt: `fail` models a raised/timed-out call;
`success p` models returned content whose `safe_json_parse` decoding chain
yields `p` (`none` when both decoding strategies fail). -/
inductive AttemptOutcome where
  | fail
  | success (parsedOutcome : Option JValue)

/-- `Oracle c a` is the outcome of attempt `a` of the `c`-th `analyze_batch`
call of the run. -/
def Oracle : Type := Nat → Nat → AttemptOutcome

def succOutcome : AttemptOutcome → Option (Option JValue)
  | .fail => none
  | .success p => some p

/-- The filtered-and-cleaned clause list built at the top of `analyze_batch`. -/
def validCleaned (clauses : List String) : List String :=
  (clauses.filter is_valid_clause).map clean_clause_text

/-- `safe_json_parse` on decoded content: a decoding failure degrades to the
empty parsed list. -/
def safe_json_parse (outcome : Option JValue) (clauses : List String) (start_id : Int) :
    List ClauseRecord :=
  match outcome with
  | some parsed => normalize_result parsed clauses start_id
  | none => normalize_result (.arr []) clauses start_id

/-- `analyze_batch`, records only: the first attempt whose request does not
raise wins and its content is parsed; if all `retries` attempts raise, the
code falls back to `safe_json_parse("[]", ...)`, i.e. the empty parsed list. -/
def analyze_batch_records (o : Oracle) (callIdx : Nat) (clauses : List String) (start_id : Int)
    (retries : Nat := 3) : List ClauseRecord :=
  let cls := validCleaned clauses
  match ((List.range retries).map (o callIdx)).findSome? succOutcome with
  | some outcome => safe_json_parse outcome cls start_id
  | none => safe_json_parse (some (.arr [])) cls start_id

/-- `analyze_batch` paired with the number of batch calls consumed (always
exactly one; the counter instruments the recursion for the bounded-retry
theorems). -/
def analyze_batch (o : Oracle) (callIdx : Nat) (clauses : List String) (start_id : Int)
    (retries : Nat := 3) : List ClauseRecord × Nat :=
  (analyze_batch_records o callIdx clauses start_id retries, callIdx + 1)

/-- `res["Risk Level"] == "Unknown" or res["Regulation"] == "Unknown"`. -/
def isFailedRecord (r : ClauseRecord) : Bool :=
  r.riskLevel == "Unknown" || pyEqStr r.regulation "Unknown"

/-- Python `a < b` on sort keys; `none` models the `TypeError` raised on
incomparable kinds.  Booleans compare as the integers 0/1.  (CPython would
also compare two list-valued keys elementwise; no reachable state under the
theorems below ever carries a container-valued Clause ID.) -/
def pyLt : JValue → JValue → Option Bool
  | .num a, .num b => some (decide (a < b))
  | .num a, .bool b => some (decide (a < if b then 1 else 0))
  | .bool a, .num b => some (decide ((if a then (1 : Int) else 0) < b))
  | .bool a, .bool b => some (decide ((if a then (1 : Int) else 0) < if b then 1 else 0))
  | .str a, .str b => some (listLtCh a.data b.data)
  | _, _ => none
where
  listLtCh : List Char → List Char → Bool
  | [], [] => false
  | [], _ :: _ => true
  | _ :: _, [] => false
  | a :: as, b :: bs => a < b || (a == b && listLtCh as bs)

/-- Stable insertion used to model `list.sort(key=lambda x: x["Clause ID"])`:
a record moves before the first element whose key is strictly greater, so
equal keys keep their relative order, as Python's stable sort does. -/
def insertByKey (x : ClauseRecord) : List ClauseRecord → Except String (List ClauseRecord)
  | [] => .ok [x]
  | y :: ys =>
    match pyLt x.clauseID y.clauseID with
    | none => .error "TypeError: unorderable sort keys"
    | some true => .ok (x :: y :: ys)
    | some false =>
      match insertByKey x ys with
      | .error e => .error e
      | .ok rest => .ok (y :: rest)

def sortByClauseID (l : List ClauseRecord) : Except String (List ClauseRecord) :=
  l.foldlM (fun acc x => insertByKey x acc) []

/-- Shared tail of `retry_failed_clauses`: sort and pair with the call count. -/
def sortPath (l : List ClauseRecord) (k : Nat) : Except String (List ClauseRecord × Nat) :=
  match sortByClauseID l with
  | .error e => .error e
  | .ok sorted => .ok (sorted, k)

/-- The `[f["Contract Clause"] for f in failed if is_valid_clause(...)]`
comprehension.  A non-string truthy field raises `AttributeError` inside
`is_valid_clause` (`.split` on a non-string); a falsy one is just rejected. -/
def retryStrings : List ClauseRecord → Except String (List String)
  | [] => .ok []
  | r :: rs =>
    match r.contractClause with
    | .str s =>
      match retryStrings rs with
      | .error e => .error e
      | .ok rest => .ok (if is_valid_clause s then s :: rest else rest)
    | v => if pyTruthy v then .error "AttributeError" else retryStrings rs

/-- A value usable as the `start_id` integer of the retried batch (Python
booleans are integers); anything else makes `i + start_id` raise `TypeError`
while the retry prompt is built, provided at least one clause survives. -/
def pyToIntKey : JValue → Option Int
  | .num n => some n
  | .bool b => some (if b then 1 else 0)
  | _ => none

/-- `retry_failed_clauses`: partition into ok/failed, re-analyze the failed
records' contract-clause text at most once with the first failed record's
Clause ID as the new start id, and sort the concatenation by Clause ID. -/
def retry_failed_clauses (o : Oracle) (callIdx : Nat) (results : List ClauseRecord)
    (retries : Nat := 1) : Except String (List ClauseRecord × Nat) :=
  let failed := results.filter isFailedRecord
  let final0 := results.filter fun r => !(isFailedRecord r)
  match failed with
  | [] => sortPath (final0 ++ failed) callIdx
  | f0 :: _ =>
    if retries == 0 then sortPath (final0 ++ failed) callIdx
    else
      match retryStrings failed with
      | .error e => .error e
      | .ok rcs =>
        match pyToIntKey f0.clauseID with
        | some sid2 =>
          let res := analyze_batch o callIdx rcs sid2
          sortPath (final0 ++ res.1) res.2
        | none =>
          if rcs.isEmpty then
            -- With no surviving clause the prompt never evaluates
            -- `i + start_id`; the retried batch is empty whatever start id.
            let res := analyze_batch o callIdx ([] : List String) 0
            sortPath (final0 ++ res.1) res.2
          else .error "TypeError: non-integer start id"

/-- The `for i in range(0, len(clauses), batch_size)` loop, structurally
recursive on a fuel initialized to `clauses.length` (with `batch_size ≥ 1` the
fuel is never exhausted). -/
def batchesAux (o : Oracle) (bs : Nat) :
    Nat → Nat → List String → Int → Except String (List ClauseRecord × Nat)
  | _, callIdx, [], _ => .ok ([], callIdx)
  | 0, _, _ :: _, _ => .error "fuel exhausted"
  | fuel + 1, callIdx, c :: cs, sid =>
    let clauses := c :: cs
    let res := analyze_batch o callIdx (clauses.take bs) sid
    match retry_failed_clauses o res.2 res.1 1 with
    | .error e => .error e
    | .ok (rr, k2) =>
      match batchesAux o bs fuel k2 (clauses.drop bs) (sid + Int.ofNat bs) with
      | .error e => .error e
      | .ok (rest, k3) => .ok (rr ++ rest, k3)

/-- `analyze_all_batches` (the unused `max_workers` parameter is dropped;
`range` with step 0 raises `ValueError` before any work). -/
def analyze_all_batches (o : Oracle) (callIdx : Nat) (clauses : List String)
    (start_id : Int := 1) (batch_size : Nat := 6) : Except String (List ClauseRecord × Nat) :=
  if batch_size == 0 then .error "ValueError: range arg 3 must not be zero"
  else batchesAux o batch_size clauses.length callIdx clauses start_id

/-! ## Spec-side observation helpers -/

def idOf (r : ClauseRecord) : Option Int :=
  match r.clauseID with
  | .num n => some n
  | _ => none

/-- Clause IDs of a successful run, `none` marking a non-integer ID. -/
def runIds (e : Except String (List ClauseRecord × Nat)) : List (Option Int) :=
  match e with
  | .ok res => res.1.map idOf
  | .error _ => []

def IdLt (a b : ClauseRecord) : Prop :=
  ∃ m n, idOf a = some m ∧ idOf b = some n ∧ m < n

def IdLe (a b : ClauseRecord) : Prop :=
  ∃ m n, idOf a = some m ∧ idOf b = some n ∧ m ≤ n

/-- Every record of `l` has an integer Clause ID within `[lo, hi]`. -/
def AllIdsIn (l : List ClauseRecord) (lo hi : Int) : Prop :=
  ∀ r ∈ l, ∃ n, idOf r = some n ∧ lo ≤ n ∧ n ≤ hi

/-- No element the overlay can reach carries a "Clause ID" key. -/
def NoIdKey (parsed : JValue) : Prop :=
  ∀ i kvs kv, elemAt parsed i = .obj kvs → kv ∈ kvs → kv.1 ≠ "Clause ID"

/-- The model never overrides the "Clause ID" field in any decoded response. -/
def OracleNoIdOverride (o : Oracle) : Prop :=
  ∀ c a p, o c a = .success (some p) → NoIdKey p

/-! ## Facts about `normalize_risk_score` -/

theorem int_clamp_eq (d : Nat) :
    (max 0 (min 100 (Int.ofNat d)) : Int) = Int.ofNat (min 100 d) := by
  simp only [Int.ofNat_eq_coe]
  omega

theorem toString_intOfNat (m : Nat) : toString (Int.ofNat m) = toString m := rfl

/-- Every output of `normalize_risk_score` is a clamped percentage literal. -/
theorem normalize_risk_score_shape (v : JValue) :
    ∃ n : Nat, n ≤ 100 ∧ normalize_risk_score v = toString n ++ "%" := by
  have hzero : ("0%" : String) = toString (0 : Nat) ++ "%" := by decide
  cases v <;> simp only [normalize_risk_score] <;>
    first
    | exact ⟨0, by omega, hzero⟩
    | · rename_i x
        cases h : firstDigits (trimChars (pyStr _).data) with
        | none => exact ⟨0, by omega, by simp [h, hzero]⟩
        | some ds =>
          refine ⟨min 100 (digitsToNat ds), by omega, ?_⟩
          simp only [h, int_clamp_eq, toString_intOfNat]

theorem normalize_risk_score_fixed :
    ∀ n < 101, normalize_risk_score (.str (toString n ++ "%")) = toString n ++ "%" := by
  decide

/-- C7: `normalize_risk_score` always returns a 1-to-3-digit percentage with
value clamped to [0,100] ("0%" when the input is null or has no digits), and it
is idempotent: re-normalizing its own output is the identity. -/
theorem normalize_risk_score_idempotent_and_shape :
    (∀ v : JValue, ∃ n : Nat, n ≤ 100 ∧ normalize_risk_score v = toString n ++ "%") ∧
    (∀ v : JValue, normalize_risk_score (.str (normalize_risk_score v)) = normalize_risk_score v) := by
  refine ⟨normalize_risk_score_shape, fun v => ?_⟩
  obtain ⟨n, hn, hv⟩ := normalize_risk_score_shape v
  rw [hv]
  exact normalize_risk_score_fixed n (by omega)

/-- C10: a leading minus sign is skipped by the digit-extraction regex, so the
magnitude rather than the signed value is clamped: "-5" normalizes to "5%". -/
theorem normalize_risk_score_minus_five :
    normalize_risk_score (.str "-5") = "5%" := by decide

/-! ## Facts about `normalize_risk_level` -/

/-- C8: `normalize_risk_level` maps null or blank input to "Unknown";
otherwise it matches "high"/"med"/"low" case-insensitively as substrings in
that priority order (so the keyword beats the numeric heuristic, e.g.
"HIGH risk, score 30" gives "High"); otherwise a present 1-to-3-digit number
maps by threshold (at least 70 to "High", at least 40 to "Medium", else
"Low", so "85" gives "High", "55" gives "Medium", "10" gives "Low");
otherwise the result is "Unknown". -/
theorem normalize_risk_level_spec :
    (normalize_risk_level .null = "Unknown") ∧
    (∀ v : JValue, (rlKey v).isEmpty = true → normalize_risk_level v = "Unknown") ∧
    (∀ v : JValue, (rlKey v).isEmpty = false →
      listHasSub "high".data (rlKey v) = true → normalize_risk_level v = "High") ∧
    (∀ v : JValue, (rlKey v).isEmpty = false →
      listHasSub "high".data (rlKey v) = false →
      listHasSub "med".data (rlKey v) = true → normalize_risk_level v = "Medium") ∧
    (∀ v : JValue, (rlKey v).isEmpty = false →
      listHasSub "high".data (rlKey v) = false →
      listHasSub "med".data (rlKey v) = false →
      listHasSub "low".data (rlKey v) = true → normalize_risk_level v = "Low") ∧
    (∀ v : JValue, ∀ ds : List Char, (rlKey v).isEmpty = false →
      listHasSub "high".data (rlKey v) = false →
      listHasSub "med".data (rlKey v) = false →
      listHasSub "low".data (rlKey v) = false →
      firstDigits (rlKey v) = some ds →
      normalize_risk_level v =
        (if 70 ≤ digitsToNat ds then "High"
         else if 40 ≤ digitsToNat ds then "Medium" else "Low")) ∧
    (∀ v : JValue, (rlKey v).isEmpty = false →
      listHasSub "high".data (rlKey v) = false →
      listHasSub "med".data (rlKey v) = false →
      listHasSub "low".data (rlKey v) = false →
      firstDigits (rlKey v) = none → normalize_risk_level v = "Unknown") ∧
    (normalize_risk_level (.str "HIGH risk, score 30") = "High" ∧
     normalize_risk_level (.str "85") = "High" ∧
     normalize_risk_level (.str "55") = "Medium" ∧
     normalize_risk_level (.str "10") = "Low" ∧
     normalize_risk_level (.str "") = "Unknown") := by
  refine ⟨rfl, ?_, ?_, ?_, ?_, ?_, ?_, by decide, by decide, by decide, by decide, by decide⟩
  · intro v h1
    cases v
    case null => exact absurd h1 (by decide)
    all_goals simp_all [normalize_risk_level]
  · intro v h1 h2
    cases v
    case null => exact absurd h2 (by decide)
    all_goals simp_all [normalize_risk_level]
  · intro v h1 h2 h3
    cases v
    case null => exact absurd h3 (by decide)
    all_goals simp_all [normalize_risk_level]
  · intro v h1 h2 h3 h4
    cases v
    case null => exact absurd h4 (by decide)
    all_goals simp_all [normalize_risk_level]
  · intro v ds h1 h2 h3 h4 h5
    cases v
    case null =>
      rw [show firstDigits (rlKey JValue.null) = none from by decide] at h5
      exact Option.noConfusion h5
    all_goals simp_all [normalize_risk_level]
  · intro v h1 h2 h3 h4 h5
    cases v
    case null => rfl
    all_goals simp_all [normalize_risk_level]

theorem normalize_risk_level_spec_witness :
    normalize_risk_level (.str " HIGH risk, score 30 ") = "High" ∧
    normalize_risk_level (.num 85) = "High" ∧
    normalize_risk_level (.str "nothing to see") = "Unknown" := by
  refine ⟨?_, ?_, ?_⟩
  · exact normalize_risk_level_spec.2.2.1 (.str " HIGH risk, score 30 ") (by decide) (by decide)
  · exact (normalize_risk_level_spec.2.2.2.2.2.1 (.num 85) [Char.ofNat 56, Char.ofNat 53]
      (by decide) (by decide) (by decide) (by decide) (by decide)).trans (by decide)
  · exact normalize_risk_level_spec.2.2.2.2.2.2.1 (.str "nothing to see")
      (by decide) (by decide) (by decide) (by decide) (by decide)

/-! ## Invariants of `normalize_result` -/

theorem normalize_risk_level_mem (v : JValue) :
    normalize_risk_level v ∈ (["High", "Medium", "Low", "Unknown"] : List String) := by
  cases v <;> simp only [normalize_risk_level] <;> (try (repeat' split)) <;> simp

/-- Values the "AI-Modified Risk Level" field can hold. -/
def AiModOk (r : ClauseRecord) : Prop :=
  r.aiModifiedRiskLevel ∈ (["Medium", "Low", "Unknown"] : List String)

theorem coerceAiMod_mem (v : JValue) :
    coerceAiMod v ∈ (["Medium", "Low", "Unknown"] : List String) := by
  have h := normalize_risk_level_mem v
  simp only [List.mem_cons, List.not_mem_nil, or_false] at h ⊢
  unfold coerceAiMod
  rcases h with h | h | h | h <;> simp [h]

theorem applyField_aiMod (r : ClauseRecord) (key : String) (v : JValue) :
    (applyField r key v).aiModifiedRiskLevel = r.aiModifiedRiskLevel ∨
    (applyField r key v).aiModifiedRiskLevel = coerceAiMod v := by
  unfold applyField
  repeat' split
  all_goals simp

theorem foldl_applyField_aiMod (kvs : List (String × JValue)) (r : ClauseRecord)
    (hr : AiModOk r) :
    AiModOk (kvs.foldl (fun acc kv => applyField acc kv.1 kv.2) r) := by
  induction kvs generalizing r with
  | nil => exact hr
  | cons kv rest ih =>
    simp only [List.foldl_cons]
    apply ih
    rcases applyField_aiMod r kv.1 kv.2 with h | h
    · unfold AiModOk; rw [h]; exact hr
    · unfold AiModOk; rw [h]; exact coerceAiMod_mem kv.2

theorem inferAiMod_aiMod (r : ClauseRecord) (hr : AiModOk r) : AiModOk (inferAiMod r) := by
  unfold inferAiMod
  repeat' split
  all_goals simp_all [AiModOk]

theorem buildRecord_aiMod (parsed : JValue) (i : Nat) (cl : String) (sid : Int) :
    AiModOk (buildRecord parsed i cl sid) := by
  apply inferAiMod_aiMod
  unfold overlayRecord
  split
  · exact foldl_applyField_aiMod _ _ (by simp [AiModOk, baseRecord])
  · simp [AiModOk, baseRecord]

/-- Provenance: every record `normalize_result` emits is built, via
`buildRecord`, from a clause of the input list that passes the validator. -/
theorem normalizeAux_prov {parsed : JValue} {sid : Int} :
    ∀ {i : Nat} {l : List String} {r : ClauseRecord}, r ∈ normalizeAux parsed sid i l →
    ∃ j cl, l.get? j = some cl ∧ is_valid_clause cl = true ∧
      r = buildRecord parsed (i + j) cl sid := by
  intro i l
  induction l generalizing i with
  | nil => intro r h; simp [normalizeAux] at h
  | cons c cs ih =>
    intro r h
    simp only [normalizeAux] at h
    split at h
    · rcases List.mem_cons.mp h with rfl | h2
      · exact ⟨0, c, rfl, by assumption, by rw [Nat.add_zero]⟩
      · obtain ⟨j, cl, hget, hv, hrec⟩ := ih h2
        refine ⟨j + 1, cl, hget, hv, ?_⟩
        have harith : i + (j + 1) = i + 1 + j := by omega
        rw [harith]; exact hrec
    · obtain ⟨j, cl, hget, hv, hrec⟩ := ih h
      refine ⟨j + 1, cl, hget, hv, ?_⟩
      have harith : i + (j + 1) = i + 1 + j := by omega
      rw [harith]; exact hrec

theorem normalize_result_prov {parsed : JValue} {clauses : List String} {sid : Int}
    {r : ClauseRecord} (h : r ∈ normalize_result parsed clauses sid) :
    ∃ i cl, clauses.get? i = some cl ∧ is_valid_clause cl = true ∧
      r = buildRecord parsed i cl sid := by
  obtain ⟨j, cl, hget, hv, hrec⟩ := @normalizeAux_prov parsed sid 0 clauses r h
  exact ⟨j, cl, hget, hv, by rw [Nat.zero_add] at hrec; exact hrec⟩

/-- A record built from some validator-passing clause (any parse outcome, any
index, any start id). -/
def Prov (r : ClauseRecord) : Prop :=
  ∃ p i cl s, is_valid_clause cl = true ∧ r = buildRecord p i cl s

theorem safe_json_parse_prov {oc : Option JValue} {cls : List String} {sid : Int}
    {r : ClauseRecord} (h : r ∈ safe_json_parse oc cls sid) :
    ∃ p, r ∈ normalize_result p cls sid := by
  unfold safe_json_parse at h
  split at h <;> exact ⟨_, h⟩

theorem analyze_batch_prov {o : Oracle} {k : Nat} {cls : List String} {sid : Int}
    {retries : Nat} {r : ClauseRecord}
    (h : r ∈ analyze_batch_records o k cls sid retries) : Prov r := by
  unfold analyze_batch_records at h
  split at h <;>
  · obtain ⟨p, hp⟩ := safe_json_parse_prov h
    obtain ⟨i, cl, _, hv, hrec⟩ := normalize_result_prov hp
    exact ⟨p, i, cl, sid, hv, hrec⟩

/-! ## Membership facts for the Clause ID sort and the reconciliation -/

theorem insertByKey_mem {x : ClauseRecord} :
    ∀ {acc res : List ClauseRecord}, insertByKey x acc = .ok res →
      ∀ r ∈ res, r = x ∨ r ∈ acc := by
  intro acc
  induction acc with
  | nil =>
    intro res h r hr
    unfold insertByKey at h
    injection h with h
    subst h
    simp only [List.mem_singleton] at hr
    exact Or.inl hr
  | cons y ys ih =>
    intro res h r hr
    unfold insertByKey at h
    split at h
    · exact Except.noConfusion h
    · injection h with h
      subst h
      exact List.mem_cons.mp hr
    · split at h
      · exact Except.noConfusion h
      · rename_i rest heq
        injection h with h
        subst h
        rcases List.mem_cons.mp hr with rfl | hr2
        · exact Or.inr (List.mem_cons_self _ _)
        · rcases ih heq r hr2 with h1 | h1
          · exact Or.inl h1
          · exact Or.inr (List.mem_cons_of_mem _ h1)

theorem sortFold_mem :
    ∀ (l acc0 res : List ClauseRecord),
      l.foldlM (fun acc x => insertByKey x acc) acc0 = .ok res →
      ∀ r ∈ res, r ∈ acc0 ∨ r ∈ l := by
  intro l
  induction l with
  | nil =>
    intro acc0 res h r hr
    simp only [List.foldlM_nil] at h
    injection h with h
    subst h
    exact Or.inl hr
  | cons x xs ih =>
    intro acc0 res h r hr
    rw [List.foldlM_cons] at h
    cases hstep : insertByKey x acc0 with
    | error e =>
      rw [hstep] at h
      exact Except.noConfusion h
    | ok acc1 =>
      rw [hstep] at h
      simp only [bind, Except.bind] at h
      rcases ih acc1 res h r hr with h3 | h3
      · rcases insertByKey_mem hstep r h3 with h4 | h4
        · exact Or.inr (by simp [h4])
        · exact Or.inl h4
      · exact Or.inr (List.mem_cons_of_mem _ h3)

theorem sortByClauseID_mem {l s : List ClauseRecord} (h : sortByClauseID l = .ok s) :
    ∀ r ∈ s, r ∈ l := by
  intro r hr
  rcases sortFold_mem l [] s h r hr with h1 | h1
  · simp at h1
  · exact h1

theorem sortPath_ok {l : List ClauseRecord} {k : Nat} {out : List ClauseRecord} {k2 : Nat}
    (h : sortPath l k = .ok (out, k2)) : sortByClauseID l = .ok out ∧ k2 = k := by
  unfold sortPath at h
  split at h
  · exact Except.noConfusion h
  · rename_i sorted heq
    injection h with h
    exact ⟨by rw [heq, (Prod.mk.injEq _ _ _ _).mp h |>.1], ((Prod.mk.injEq _ _ _ _).mp h).2.symm⟩

theorem analyze_batch_fst (o : Oracle) (k : Nat) (cls : List String) (sid : Int)
    (retries : Nat) :
    (analyze_batch o k cls sid retries).1 = analyze_batch_records o k cls sid retries := rfl

theorem analyze_batch_snd (o : Oracle) (k : Nat) (cls : List String) (sid : Int)
    (retries : Nat) : (analyze_batch o k cls sid retries).2 = k + 1 := rfl

/-- Membership in reconciliation output: each record either survives from the
input or was produced by the (single) retried batch call. -/
theorem retry_mem_or_batch {o : Oracle} {k : Nat} {results : List ClauseRecord}
    {retries : Nat} {out : List ClauseRecord} {k2 : Nat}
    (h : retry_failed_clauses o k results retries = .ok (out, k2)) :
    ∀ r ∈ out, r ∈ results ∨ Prov r := by
  have hleft : ∀ {l : List ClauseRecord} {kk : Nat},
      sortPath (results.filter (fun r => !(isFailedRecord r)) ++ l) kk = .ok (out, k2) →
      (∀ r ∈ l, r ∈ results ∨ Prov r) → ∀ r ∈ out, r ∈ results ∨ Prov r := by
    intro l kk hsp hl r hr
    obtain ⟨hs, _⟩ := sortPath_ok hsp
    rcases List.mem_append.mp (sortByClauseID_mem hs r hr) with h1 | h1
    · exact Or.inl (List.mem_of_mem_filter h1)
    · exact hl r h1
  simp only [retry_failed_clauses, analyze_batch_fst, analyze_batch_snd] at h
  split at h
  · exact hleft h (fun r hr => Or.inl (List.mem_of_mem_filter hr))
  · split at h
    · exact hleft h (fun r hr => Or.inl (List.mem_of_mem_filter hr))
    · split at h
      · exact Except.noConfusion h
      · split at h
        · exact hleft h (fun r hr => Or.inr (analyze_batch_prov hr))
        · split at h
          · exact hleft h (fun r hr => Or.inr (analyze_batch_prov hr))
          · exact Except.noConfusion h

theorem batchesAux_prov (o : Oracle) (bs : Nat) :
    ∀ (fuel k : Nat) (cls : List String) (sid : Int) (out : List ClauseRecord) (k2 : Nat),
      batchesAux o bs fuel k cls sid = .ok (out, k2) → ∀ r ∈ out, Prov r := by
  intro fuel
  induction fuel with
  | zero =>
    intro k cls sid out k2 h r hr
    cases cls with
    | nil =>
      simp only [batchesAux] at h
      injection h with h
      rw [← ((Prod.mk.injEq _ _ _ _).mp h).1] at hr
      simp at hr
    | cons c cs => exact Except.noConfusion h
  | succ fuel ih =>
    intro k cls sid out k2 h r hr
    cases cls with
    | nil =>
      simp only [batchesAux] at h
      injection h with h
      rw [← ((Prod.mk.injEq _ _ _ _).mp h).1] at hr
      simp at hr
    | cons c cs =>
      simp only [batchesAux, analyze_batch_fst, analyze_batch_snd] at h
      split at h
      · exact Except.noConfusion h
      · rename_i rr k2' hretry
        split at h
        · exact Except.noConfusion h
        · rename_i rest k3 hrec
          injection h with h
          rw [← ((Prod.mk.injEq _ _ _ _).mp h).1] at hr
          rcases List.mem_append.mp hr with h1 | h1
          · rcases retry_mem_or_batch hretry r h1 with h2 | h2
            · exact analyze_batch_prov h2
            · exact h2
          · exact ih _ _ _ _ _ hrec r h1

theorem analyze_all_batches_prov {o : Oracle} {k : Nat} {cls : List String} {sid : Int}
    {bs : Nat} {out : List ClauseRecord} {k2 : Nat}
    (h : analyze_all_batches o k cls sid bs = .ok (out, k2)) : ∀ r ∈ out, Prov r := by
  unfold analyze_all_batches at h
  split at h
  · exact Except.noConfusion h
  · exact batchesAux_prov o bs _ k cls sid out k2 h

/-! ## C2, C6: schema invariants of the output records -/

theorem prov_aiModOk {r : ClauseRecord} (h : Prov r) : AiModOk r := by
  obtain ⟨p, i, cl, s, _, rfl⟩ := h
  exact buildRecord_aiMod p i cl s

theorem aiModOk_cases {r : ClauseRecord} (h : AiModOk r) :
    (r.aiModifiedRiskLevel = "Medium" ∨ r.aiModifiedRiskLevel = "Low" ∨
      r.aiModifiedRiskLevel = "Unknown") ∧ r.aiModifiedRiskLevel ≠ "High" := by
  simp only [AiModOk, List.mem_cons, List.not_mem_nil, or_false] at h
  refine ⟨h, ?_⟩
  rcases h with h | h | h <;> rw [h] <;> decide

/-- C2: in every record produced by `normalize_result` — and hence in every
record of the full pipeline output — the "AI-Modified Risk Level" field is
Medium, Low or Unknown, never High; and a model-supplied value normalizing to
High is coerced to Medium by the field overlay. -/
theorem aiModifiedRiskLevel_never_high :
    (∀ (parsed : JValue) (clauses : List String) (sid : Int) (r : ClauseRecord),
      r ∈ normalize_result parsed clauses sid →
      (r.aiModifiedRiskLevel = "Medium" ∨ r.aiModifiedRiskLevel = "Low" ∨
        r.aiModifiedRiskLevel = "Unknown") ∧ r.aiModifiedRiskLevel ≠ "High") ∧
    (∀ (r0 : ClauseRecord) (v : JValue), normalize_risk_level v = "High" →
      (applyField r0 "AI-Modified Risk Level" v).aiModifiedRiskLevel = "Medium") ∧
    (∀ (o : Oracle) (k : Nat) (clauses : List String) (sid : Int) (bs : Nat)
      (out : List ClauseRecord) (k2 : Nat),
      analyze_all_batches o k clauses sid bs = .ok (out, k2) → ∀ r ∈ out,
      (r.aiModifiedRiskLevel = "Medium" ∨ r.aiModifiedRiskLevel = "Low" ∨
        r.aiModifiedRiskLevel = "Unknown") ∧ r.aiModifiedRiskLevel ≠ "High") := by
  refine ⟨?_, ?_, ?_⟩
  · intro parsed clauses sid r h
    obtain ⟨i, cl, _, _, rfl⟩ := normalize_result_prov h
    exact aiModOk_cases (buildRecord_aiMod parsed i cl sid)
  · intro r0 v hv
    have h1 : (applyField r0 "AI-Modified Risk Level" v).aiModifiedRiskLevel
        = coerceAiMod v := rfl
    rw [h1]
    unfold coerceAiMod
    rw [hv]
    decide
  · intro o k clauses sid bs out k2 h r hr
    exact aiModOk_cases (prov_aiModOk (analyze_all_batches_prov h r hr))

def wClause : String := "the parties shall keep all shared information confidential"

def wParsedHigh : JValue := .arr [.obj [("AI-Modified Risk Level", .str "High")]]

theorem aiModifiedRiskLevel_never_high_witness :
    ((buildRecord wParsedHigh 0 wClause 1).aiModifiedRiskLevel = "Medium" ∨
     (buildRecord wParsedHigh 0 wClause 1).aiModifiedRiskLevel = "Low" ∨
     (buildRecord wParsedHigh 0 wClause 1).aiModifiedRiskLevel = "Unknown") ∧
    (buildRecord wParsedHigh 0 wClause 1).aiModifiedRiskLevel ≠ "High" :=
  aiModifiedRiskLevel_never_high.1 wParsedHigh [wClause] 1
    (buildRecord wParsedHigh 0 wClause 1)
    (by simp [normalize_result, normalizeAux,
          show is_valid_clause wClause = true from by decide])

/-- C6: a ClauseRecord is created only from a validator-passing clause: every
record `normalize_result` emits arises, via `buildRecord`, from an input
clause passing `is_valid_clause`, and every record of a successful
`analyze_all_batches` run arises from some validator-passing clause string —
so text failing the validator never yields an output record at any stage. -/
theorem records_only_from_valid_clauses :
    (∀ (parsed : JValue) (clauses : List String) (sid : Int) (r : ClauseRecord),
      r ∈ normalize_result parsed clauses sid →
      ∃ i cl, clauses.get? i = some cl ∧ is_valid_clause cl = true ∧
        r = buildRecord parsed i cl sid) ∧
    (∀ (o : Oracle) (k : Nat) (clauses : List String) (sid : Int) (bs : Nat)
      (out : List ClauseRecord) (k2 : Nat),
      analyze_all_batches o k clauses sid bs = .ok (out, k2) → ∀ r ∈ out,
      ∃ p i cl s, is_valid_clause cl = true ∧ r = buildRecord p i cl s) :=
  ⟨fun _ _ _ _ h => normalize_result_prov h,
   fun _ _ _ _ _ _ _ h r hr => analyze_all_batches_prov h r hr⟩

theorem records_only_from_valid_clauses_witness :
    ∃ i cl, (["Exhibit A", wClause] : List String).get? i = some cl ∧
      is_valid_clause cl = true ∧
      buildRecord (.arr []) 1 wClause 5 = buildRecord (.arr []) i cl 5 :=
  records_only_from_valid_clauses.1 (.arr []) ["Exhibit A", wClause] 5
    (buildRecord (.arr []) 1 wClause 5)
    (by simp [normalize_result, normalizeAux,
          show is_valid_clause wClause = true from by decide,
          show is_valid_clause "Exhibit A" = false from by decide])

/-! ## C3: the post-overlay inference for "AI-Modified Risk Level" -/

/-- The risk-level mapping the specification describes for the fallback
inference (spec side, compared against the code path below). -/
def specInferredLevel (rl : String) : String :=
  if rl == "High" then "Medium"
  else if rl == "Medium" then "Low"
  else if rl == "Low" then "Low"
  else "Medium"

/-- C3: whenever, after the field overlay, "AI-Modified Risk Level" is still
Unknown while "AI-Modified Clause" is present (truthy) and differs from the
"not available" sentinel, the emitted record carries the level inferred from
the original Risk Level (High to Medium, Medium to Low, Low to Low, anything
else to Medium); the result is Medium or Low and never remains Unknown. -/
theorem inferAiMod_fills_unknown :
    ∀ (parsed : JValue) (i : Nat) (cl : String) (sid : Int),
      (overlayRecord parsed i cl sid).aiModifiedRiskLevel = "Unknown" →
      pyTruthy (overlayRecord parsed i cl sid).aiModifiedClause = true →
      pyEqStr (overlayRecord parsed i cl sid).aiModifiedClause AIMOD_SENTINEL = false →
      (buildRecord parsed i cl sid).aiModifiedRiskLevel
          = specInferredLevel (overlayRecord parsed i cl sid).riskLevel ∧
      ((buildRecord parsed i cl sid).aiModifiedRiskLevel = "Medium" ∨
        (buildRecord parsed i cl sid).aiModifiedRiskLevel = "Low") ∧
      (buildRecord parsed i cl sid).aiModifiedRiskLevel ≠ "Unknown" := by
  intro parsed i cl sid h1 h2 h3
  have hb : buildRecord parsed i cl sid = inferAiMod (overlayRecord parsed i cl sid) := rfl
  rw [hb]
  unfold inferAiMod specInferredLevel
  simp only [h1, h2, h3, beq_self_eq_true, if_true, Bool.not_false, Bool.and_self]
  repeat' split
  all_goals simp_all

def wParsedRewrite : JValue :=
  .arr [.obj [("AI-Modified Clause", .str "a safer replacement clause text")]]

theorem inferAiMod_fills_unknown_witness :
    (buildRecord wParsedRewrite 0 wClause 1).aiModifiedRiskLevel
        = specInferredLevel (overlayRecord wParsedRewrite 0 wClause 1).riskLevel ∧
    ((buildRecord wParsedRewrite 0 wClause 1).aiModifiedRiskLevel = "Medium" ∨
      (buildRecord wParsedRewrite 0 wClause 1).aiModifiedRiskLevel = "Low") ∧
    (buildRecord wParsedRewrite 0 wClause 1).aiModifiedRiskLevel ≠ "Unknown" :=
  inferAiMod_fills_unknown wParsedRewrite 0 wClause 1 (by decide) (by decide) (by decide)

/-! ## C9: non-object elements of the parsed array contribute nothing -/

def isJObj : JValue → Bool
  | .obj _ => true
  | _ => false

theorem inferAiMod_base (cid : Int) (cl : String) :
    inferAiMod (baseRecord cid cl) = baseRecord cid cl := by
  unfold inferAiMod baseRecord
  simp [AIMOD_SENTINEL, pyTruthy, pyEqStr]

theorem normalizeAux_mem_of_get {parsed : JValue} {sid : Int} :
    ∀ {l : List String} {j : Nat} {cl : String} (i0 : Nat),
      l.get? j = some cl → is_valid_clause cl = true →
      buildRecord parsed (i0 + j) cl sid ∈ normalizeAux parsed sid i0 l := by
  intro l
  induction l with
  | nil => intro j cl i0 hget _; simp at hget
  | cons c cs ih =>
    intro j cl i0 hget hv
    cases j with
    | zero =>
      simp only [List.get?] at hget
      injection hget with hget
      subst hget
      simp only [normalizeAux, hv, if_true, Nat.add_zero]
      exact List.mem_cons_self _ _
    | succ j =>
      simp only [List.get?] at hget
      have harith : i0 + (j + 1) = (i0 + 1) + j := by omega
      rw [harith]
      simp only [normalizeAux]
      split
      · exact List.mem_cons_of_mem _ (ih (i0 + 1) hget hv)
      · exact ih (i0 + 1) hget hv

/-- C9: when the parsed array's element paired with a valid clause is not a
JSON object (a string, number, boolean, null or nested array), the overlay is
skipped without error and the emitted record for that clause is exactly the
all-default `baseRecord` (Clause ID `startId + i`, cleaned clause text, every
other field at its default or sentinel); the non-object element contributes
nothing. -/
theorem non_object_element_gives_default_record :
    ∀ (xs : List JValue) (v : JValue) (i : Nat) (cl : String) (sid : Int)
      (clauses : List String),
      xs.get? i = some v → isJObj v = false →
      buildRecord (.arr xs) i cl sid = baseRecord (sid + Int.ofNat i) cl ∧
      (clauses.get? i = some cl → is_valid_clause cl = true →
        baseRecord (sid + Int.ofNat i) cl ∈ normalize_result (.arr xs) clauses sid) := by
  intro xs v i cl sid clauses hget hobj
  have hget2 : xs[i]? = some v := by
    rw [← List.get?_eq_getElem?]
    exact hget
  have he : elemAt (.arr xs) i = v := by simp [elemAt, hget2]
  have hov : overlayRecord (.arr xs) i cl sid = baseRecord (sid + Int.ofNat i) cl := by
    unfold overlayRecord
    rw [he]
    cases v <;> simp_all [isJObj]
  have hbuild : buildRecord (.arr xs) i cl sid = baseRecord (sid + Int.ofNat i) cl := by
    unfold buildRecord
    rw [hov, inferAiMod_base]
  refine ⟨hbuild, fun hgetc hv => ?_⟩
  have hm := @normalizeAux_mem_of_get (.arr xs) sid clauses i cl 0 hgetc hv
  rw [Nat.zero_add] at hm
  rw [← hbuild]
  exact hm

theorem non_object_element_gives_default_record_witness :
    buildRecord (.arr [.str "not an object"]) 0 wClause 7
        = baseRecord (7 + Int.ofNat 0) wClause ∧
    baseRecord (7 + Int.ofNat 0) wClause
        ∈ normalize_result (.arr [.str "not an object"]) [wClause] 7 :=
  ⟨(non_object_element_gives_default_record [.str "not an object"] (.str "not an object")
      0 wClause 7 [wClause] rfl rfl).1,
   (non_object_element_gives_default_record [.str "not an object"] (.str "not an object")
      0 wClause 7 [wClause] rfl rfl).2 rfl (by decide)⟩

/-! ## C4: behavior when every request attempt fails -/

/-- An oracle whose every request attempt raises. -/
def oFailAll : Oracle := fun _ _ => .fail

def c4Clause : String := "Table of\nContents agreement terms apply here"

/-- C4 counterexample: this clause passes the validator (the junk phrase is
split by a newline, so the case-insensitive substring test misses it), yet the
all-attempts-fail batch returns no record for it, because `normalize_result`
re-validates the *cleaned* text, in which the junk phrase has become
contiguous.  So "one record per validator-passing input clause" fails. -/
theorem analyze_batch_allfail_counterexample :
    is_valid_clause c4Clause = true ∧
    is_valid_clause (clean_clause_text c4Clause) = false ∧
    analyze_batch_records oFailAll 0 [c4Clause] 1 3 = [] := by
  refine ⟨by decide, by decide, rfl⟩

/-- One all-default record per surviving clause (spec side, used to state what
`analyze_batch` returns when every model call fails). -/
def defaultRecords (sid : Int) : Nat → List String → List ClauseRecord
  | _, [] => []
  | i, cl :: rest =>
    if is_valid_clause cl then
      baseRecord (sid + Int.ofNat i) cl :: defaultRecords sid (i + 1) rest
    else defaultRecords sid (i + 1) rest

theorem elemAt_arrNil (i : Nat) : elemAt (.arr []) i = .obj [] := by
  cases i <;> rfl

theorem buildRecord_arrNil (i : Nat) (cl : String) (sid : Int) :
    buildRecord (.arr []) i cl sid = baseRecord (sid + Int.ofNat i) cl := by
  unfold buildRecord overlayRecord
  rw [elemAt_arrNil]
  exact inferAiMod_base _ _

theorem normalizeAux_arrNil (sid : Int) :
    ∀ (i : Nat) (l : List String),
      normalizeAux (.arr []) sid i l = defaultRecords sid i l := by
  intro i l
  induction l generalizing i with
  | nil => rfl
  | cons c cs ih => simp only [normalizeAux, defaultRecords, buildRecord_arrNil, ih]

theorem defaultRecords_mem {sid : Int} :
    ∀ {i : Nat} {l : List String} {r : ClauseRecord}, r ∈ defaultRecords sid i l →
      ∃ cid cl, r = baseRecord cid cl := by
  intro i l
  induction l generalizing i with
  | nil => intro r h; simp [defaultRecords] at h
  | cons c cs ih =>
    intro r h
    simp only [defaultRecords] at h
    split at h
    · rcases List.mem_cons.mp h with rfl | h2
      · exact ⟨_, _, rfl⟩
      · exact ih h2
    · exact ih h

/-- C4 (amended): if every request attempt of the call fails, `analyze_batch`
returns, without raising, exactly one all-default record per input clause that
passes the validator *and whose cleaned text still passes it* (a clause valid
only before whitespace collapsing is dropped; see the counterexample); every
record carries Risk Level "Unknown", Regulation "Unknown", Risk Score "0%"
and the fixed sentinels for the free-text fields. -/
theorem analyze_batch_allfail (o : Oracle) (k : Nat) (clauses : List String)
    (sid : Int) (retries : Nat) (hfail : ∀ a, a < retries → o k a = .fail) :
    analyze_batch_records o k clauses sid retries
      = defaultRecords sid 0 (validCleaned clauses) ∧
    ∀ r ∈ analyze_batch_records o k clauses sid retries,
      r.riskLevel = "Unknown" ∧ r.regulation = .str "Unknown" ∧ r.riskScore = "0%" ∧
      r.clauseIdentification = .str "Unknown" ∧
      r.clauseFeedbackFix = .str FEEDBACK_SENTINEL ∧
      r.aiModifiedClause = .str AIMOD_SENTINEL ∧ r.aiModifiedRiskLevel = "Unknown" := by
  have hnone : ((List.range retries).map (o k)).findSome? succOutcome = none := by
    rw [List.findSome?_eq_none_iff]
    intro x hx
    obtain ⟨a, ha, rfl⟩ := List.mem_map.mp hx
    rw [hfail a (List.mem_range.mp ha)]
    rfl
  have hrec : analyze_batch_records o k clauses sid retries
      = defaultRecords sid 0 (validCleaned clauses) := by
    unfold analyze_batch_records
    rw [hnone]
    exact normalizeAux_arrNil sid 0 _
  refine ⟨hrec, fun r hr => ?_⟩
  rw [hrec] at hr
  obtain ⟨cid, cl, rfl⟩ := defaultRecords_mem hr
  exact ⟨rfl, rfl, rfl, rfl, rfl, rfl, rfl⟩

theorem analyze_batch_allfail_witness :
    analyze_batch_records oFailAll 0 [wClause] 1 3
      = defaultRecords 1 0 (validCleaned [wClause]) :=
  (analyze_batch_allfail oFailAll 0 [wClause] 1 3 (fun _ _ => rfl)).1

/-! ## C5: reconciliation performs at most one retry round -/

/-- C5: `retry_failed_clauses` is a single bounded round: at most one further
`analyze_batch` call ever happens (the call counter grows by at most one), and
whenever the failed partition is non-empty and retries remain, the result is
exactly the sort of ok-records plus the *raw* output of one `analyze_batch`
call on the failed records' validated contract-clause text, started at the
first failed record's Clause ID — the retried output is never reconciled
again, even if it still contains Unknown values. -/
theorem retry_failed_clauses_one_round :
    (∀ (o : Oracle) (k : Nat) (results : List ClauseRecord) (retries : Nat)
      (out : List ClauseRecord) (k2 : Nat),
      retry_failed_clauses o k results retries = .ok (out, k2) → k2 ≤ k + 1) ∧
    (∀ (o : Oracle) (k : Nat) (results : List ClauseRecord) (retries : Nat)
      (f0 : ClauseRecord) (fs : List ClauseRecord) (rcs : List String) (sid2 : Int),
      results.filter isFailedRecord = f0 :: fs →
      retries ≠ 0 →
      retryStrings (f0 :: fs) = .ok rcs →
      pyToIntKey f0.clauseID = some sid2 →
      retry_failed_clauses o k results retries
        = sortPath (results.filter (fun r => !(isFailedRecord r))
            ++ analyze_batch_records o k rcs sid2 3) (k + 1)) := by
  constructor
  · intro o k results retries out k2 h
    simp only [retry_failed_clauses, analyze_batch_fst, analyze_batch_snd] at h
    split at h
    · rw [(sortPath_ok h).2]; omega
    · split at h
      · rw [(sortPath_ok h).2]; omega
      · split at h
        · exact Except.noConfusion h
        · split at h
          · rw [(sortPath_ok h).2]
          · split at h
            · rw [(sortPath_ok h).2]
            · exact Except.noConfusion h
  · intro o k results retries f0 fs rcs sid2 hfail hretries hrs hid
    have hbeq : (retries == 0) = false := by
      simpa using hretries
    simp only [retry_failed_clauses, hfail, hbeq, Bool.false_eq_true, if_false, hrs, hid,
      analyze_batch_fst, analyze_batch_snd]

def wFailedRec : ClauseRecord := baseRecord 1 wClause

theorem retry_failed_clauses_one_round_witness :
    retry_failed_clauses oFailAll 0 [wFailedRec] 1
      = sortPath (([wFailedRec].filter (fun r => !(isFailedRecord r)))
          ++ analyze_batch_records oFailAll 0 [clean_clause_text wClause] 1 3) (0 + 1) :=
  retry_failed_clauses_one_round.2 oFailAll 0 [wFailedRec] 1 wFailedRec []
    [clean_clause_text wClause] 1 rfl (by decide) rfl rfl

/-! ## C1: ordering of the full pipeline output -/

def wc1 : String := "the first party shall indemnify the second party"

def wc2 : String := "confidential data shall be processed lawfully always"

def wc3 : String := "the vendor may disclose records to regulators"

/-- Model behavior exhibiting duplicate Clause IDs: the first batch call
classifies only the middle clause, the retried call yields nothing parseable. -/
def oC1 : Oracle := fun c _ =>
  if c == 0 then
    .success (some (.arr [.obj [],
      .obj [("Risk Level", .str "High"), ("Regulation", .str "GDPR")],
      .obj []]))
  else .success (some (.arr []))

/-- C1 counterexample: on three valid clauses with batchSize 3 and startId 1,
records 1 and 3 fail while record 2 succeeds; the retry re-ids the two failed
clauses contiguously from the first failed Clause ID (1), so the pipeline
returns Clause IDs [1, 2, 2] — duplicates, refuting uniqueness. -/
theorem pipeline_duplicate_ids_counterexample :
    runIds (analyze_all_batches oC1 0 [wc1, wc2, wc3] 1 3) = [some 1, some 2, some 2] ∧
    ¬ (runIds (analyze_all_batches oC1 0 [wc1, wc2, wc3] 1 3)).Nodup := by
  have h : runIds (analyze_all_batches oC1 0 [wc1, wc2, wc3] 1 3)
      = [some 1, some 2, some 2] := by rfl
  refine ⟨h, ?_⟩
  rw [h]
  decide

theorem applyField_clauseID {key : String} (hkey : key ≠ "Clause ID")
    (r : ClauseRecord) (v : JValue) : (applyField r key v).clauseID = r.clauseID := by
  unfold applyField
  repeat' split
  all_goals first
    | rfl
    | (rename_i h; exact absurd (by simpa using h) hkey)

theorem foldl_applyField_clauseID {kvs : List (String × JValue)}
    (hk : ∀ kv ∈ kvs, kv.1 ≠ "Clause ID") (r : ClauseRecord) :
    (kvs.foldl (fun acc kv => applyField acc kv.1 kv.2) r).clauseID = r.clauseID := by
  induction kvs generalizing r with
  | nil => rfl
  | cons kv rest ih =>
    simp only [List.foldl_cons]
    rw [ih (fun x hx => hk x (List.mem_cons_of_mem _ hx))]
    exact applyField_clauseID (hk kv (List.mem_cons_self _ _)) r kv.2

theorem inferAiMod_clauseID (r : ClauseRecord) : (inferAiMod r).clauseID = r.clauseID := by
  unfold inferAiMod
  repeat' split
  all_goals rfl

theorem buildRecord_clauseID {parsed : JValue} (hp : NoIdKey parsed)
    (i : Nat) (cl : String) (sid : Int) :
    (buildRecord parsed i cl sid).clauseID = .num (sid + Int.ofNat i) := by
  unfold buildRecord
  rw [inferAiMod_clauseID]
  unfold overlayRecord
  split
  · rename_i kvs heq
    rw [foldl_applyField_clauseID (fun kv hkv => hp i kvs kv heq hkv)]
    rfl
  · rfl

theorem normalizeAux_ids {parsed : JValue} (hp : NoIdKey parsed) (sid : Int) :
    ∀ (i : Nat) (l : List String),
      (∀ r ∈ normalizeAux parsed sid i l,
        ∃ j, i ≤ j ∧ j < i + l.length ∧ r.clauseID = .num (sid + Int.ofNat j)) ∧
      (normalizeAux parsed sid i l).Pairwise IdLt := by
  intro i l
  induction l generalizing i with
  | nil => exact ⟨by simp [normalizeAux], by simp [normalizeAux]⟩
  | cons c cs ih =>
    obtain ⟨ihmem, ihpw⟩ := ih (i + 1)
    constructor
    · intro r hr
      simp only [normalizeAux] at hr
      split at hr
      · rcases List.mem_cons.mp hr with rfl | hr2
        · exact ⟨i, le_refl _, by simp, buildRecord_clauseID hp i c sid⟩
        · obtain ⟨j, h1, h2, h3⟩ := ihmem r hr2
          exact ⟨j, by omega, by simp only [List.length_cons] at h2 ⊢; omega, h3⟩
      · obtain ⟨j, h1, h2, h3⟩ := ihmem r hr
        exact ⟨j, by omega, by simp only [List.length_cons] at h2 ⊢; omega, h3⟩
    · simp only [normalizeAux]
      split
      · refine List.Pairwise.cons ?_ ihpw
        intro b hb
        obtain ⟨j, h1, _, h3⟩ := ihmem b hb
        refine ⟨sid + Int.ofNat i, sid + Int.ofNat j, ?_, ?_, ?_⟩
        · rw [idOf, buildRecord_clauseID hp i c sid]
        · rw [idOf, h3]
        · simp only [Int.ofNat_eq_coe]
          omega
      · exact ihpw

theorem NoIdKey_arrNil : NoIdKey (.arr []) := by
  intro i kvs kv he hm
  rw [elemAt_arrNil] at he
  injection he with he
  subst he
  simp at hm

/-- Any `analyze_batch` output is a `normalize_result` of some parse outcome
respecting the oracle's no-Clause-ID-override guarantee. -/
theorem analyze_batch_eq_normalize {o : Oracle} (ho : OracleNoIdOverride o)
    (k : Nat) (cls : List String) (sid : Int) (retries : Nat) :
    ∃ p, NoIdKey p ∧
      analyze_batch_records o k cls sid retries
        = normalize_result p (validCleaned cls) sid := by
  unfold analyze_batch_records
  cases hfs : ((List.range retries).map (o k)).findSome? succOutcome with
  | none => exact ⟨.arr [], NoIdKey_arrNil, rfl⟩
  | some outcome =>
    obtain ⟨x, hx, hsx⟩ := List.exists_of_findSome?_eq_some hfs
    obtain ⟨a, _, rfl⟩ := List.mem_map.mp hx
    cases hoa : o k a with
    | fail => rw [hoa] at hsx; exact Option.noConfusion hsx
    | success po =>
      rw [hoa] at hsx
      injection hsx with hsx
      subst hsx
      cases po with
      | none => exact ⟨.arr [], NoIdKey_arrNil, rfl⟩
      | some p => exact ⟨p, ho k a p hoa, rfl⟩

theorem validCleaned_length_le (cls : List String) :
    (validCleaned cls).length ≤ cls.length := by
  unfold validCleaned
  rw [List.length_map]
  exact List.length_filter_le _ _

theorem analyze_batch_ids {o : Oracle} (ho : OracleNoIdOverride o) (k : Nat)
    (cls : List String) (sid : Int) (retries : Nat) :
    (∀ r ∈ analyze_batch_records o k cls sid retries,
      ∃ j, j < (validCleaned cls).length ∧ r.clauseID = .num (sid + Int.ofNat j)) ∧
    (analyze_batch_records o k cls sid retries).Pairwise IdLt := by
  obtain ⟨p, hp, heq⟩ := analyze_batch_eq_normalize ho k cls sid retries
  rw [heq]
  obtain ⟨hmem, hpw⟩ := normalizeAux_ids hp sid 0 (validCleaned cls)
  refine ⟨fun r hr => ?_, hpw⟩
  obtain ⟨j, _, h2, h3⟩ := hmem r hr
  exact ⟨j, by omega, h3⟩

/-- Every record of the list carries an integer Clause ID. -/
def AllNum (l : List ClauseRecord) : Prop := ∀ r ∈ l, ∃ n, idOf r = some n

theorem idOf_eq_some {r : ClauseRecord} {n : Int} (h : idOf r = some n) :
    r.clauseID = .num n := by
  unfold idOf at h
  split at h
  · rename_i m heq
    injection h with h
    rw [← h]
    exact heq
  · exact Option.noConfusion h

theorem insertByKey_sorted {x : ClauseRecord} {nx : Int} (hx : idOf x = some nx) :
    ∀ {acc : List ClauseRecord}, AllNum acc → acc.Pairwise IdLe →
      ∃ res, insertByKey x acc = .ok res ∧ AllNum res ∧ res.Pairwise IdLe ∧
        ∀ r, r ∈ res ↔ r = x ∨ r ∈ acc := by
  intro acc
  induction acc with
  | nil =>
    intro _ _
    refine ⟨[x], rfl, ?_, by simp, by simp⟩
    intro r hr
    simp only [List.mem_singleton] at hr
    subst hr
    exact ⟨nx, hx⟩
  | cons y ys ih =>
    intro hall hpw
    obtain ⟨ny, hy⟩ := hall y (List.mem_cons_self _ _)
    have hys : AllNum ys := fun r hr => hall r (List.mem_cons_of_mem _ hr)
    have hred : pyLt x.clauseID y.clauseID = some (decide (nx < ny)) := by
      rw [idOf_eq_some hx, idOf_eq_some hy]
      rfl
    cases hc : decide (nx < ny) with
    | true =>
      have hlt : nx < ny := of_decide_eq_true hc
      have hstep : insertByKey x (y :: ys) = .ok (x :: y :: ys) := by
        unfold insertByKey
        rw [hred, hc]
      refine ⟨x :: y :: ys, hstep, ?_, ?_, ?_⟩
      · intro r hr
        rcases List.mem_cons.mp hr with rfl | hr2
        · exact ⟨nx, hx⟩
        · exact hall r hr2
      · refine List.Pairwise.cons ?_ hpw
        intro b hb
        obtain ⟨nb, hnb⟩ := hall b hb
        refine ⟨nx, nb, hx, hnb, ?_⟩
        rcases List.mem_cons.mp hb with rfl | hb2
        · rw [hy] at hnb
          injection hnb with hnb
          omega
        · obtain ⟨m1, m2, ha1, ha2, hle⟩ := List.rel_of_pairwise_cons hpw hb2
          rw [hy] at ha1
          injection ha1 with ha1
          rw [hnb] at ha2
          injection ha2 with ha2
          omega
      · intro r
        simp [List.mem_cons]
    | false =>
      have hge : ny ≤ nx := by
        have := of_decide_eq_false hc
        omega
      obtain ⟨res0, hres0, hall0, hpw0, hmem0⟩ := ih hys (List.Pairwise.of_cons hpw)
      have hstep : insertByKey x (y :: ys) = .ok (y :: res0) := by
        unfold insertByKey
        rw [hred, hc, hres0]
      refine ⟨y :: res0, hstep, ?_, ?_, ?_⟩
      · intro r hr
        rcases List.mem_cons.mp hr with rfl | hr2
        · exact ⟨ny, hy⟩
        · exact hall0 r hr2
      · refine List.Pairwise.cons ?_ hpw0
        intro b hb
        rcases (hmem0 b).mp hb with rfl | hb2
        · exact ⟨ny, nx, hy, hx, hge⟩
        · exact List.rel_of_pairwise_cons hpw hb2
      · intro r
        constructor
        · intro hr
          rcases List.mem_cons.mp hr with rfl | hr2
          · exact Or.inr (List.mem_cons_self _ _)
          · rcases (hmem0 r).mp hr2 with rfl | h3
            · exact Or.inl rfl
            · exact Or.inr (List.mem_cons_of_mem _ h3)
        · intro hr
          rcases hr with rfl | hr2
          · exact List.mem_cons_of_mem _ ((hmem0 r).mpr (Or.inl rfl))
          · rcases List.mem_cons.mp hr2 with rfl | h3
            · exact List.mem_cons_self _ _
            · exact List.mem_cons_of_mem _ ((hmem0 r).mpr (Or.inr h3))

theorem sortFold_sorted :
    ∀ (l : List ClauseRecord), AllNum l → ∀ (acc : List ClauseRecord), AllNum acc →
      acc.Pairwise IdLe →
      ∃ res, l.foldlM (fun acc x => insertByKey x acc) acc = .ok res ∧
        AllNum res ∧ res.Pairwise IdLe ∧ ∀ r, r ∈ res ↔ r ∈ acc ∨ r ∈ l := by
  intro l
  induction l with
  | nil =>
    intro _ acc hacc hpw
    exact ⟨acc, rfl, hacc, hpw, by simp⟩
  | cons x xs ih =>
    intro hall acc hacc hpw
    obtain ⟨nx, hx⟩ := hall x (List.mem_cons_self _ _)
    obtain ⟨res1, h1, hall1, hpw1, hmem1⟩ := insertByKey_sorted hx hacc hpw
    obtain ⟨res, h2, hall2, hpw2, hmem2⟩ :=
      ih (fun r hr => hall r (List.mem_cons_of_mem _ hr)) res1 hall1 hpw1
    refine ⟨res, ?_, hall2, hpw2, ?_⟩
    · rw [List.foldlM_cons, h1]
      simpa [bind, Except.bind] using h2
    · intro r
      rw [hmem2 r, hmem1 r]
      simp [List.mem_cons]
      tauto

theorem sortByClauseID_sorted {l : List ClauseRecord} (h : AllNum l) :
    ∃ res, sortByClauseID l = .ok res ∧ AllNum res ∧ res.Pairwise IdLe ∧
      ∀ r, r ∈ res ↔ r ∈ l := by
  obtain ⟨res, h1, h2, h3, h4⟩ := sortFold_sorted l h [] (by intro r hr; simp at hr) (by simp)
  refine ⟨res, h1, h2, h3, fun r => ?_⟩
  rw [h4 r]
  simp

/-- A strictly id-increasing list whose ids are bounded by `hi` has its head
id at most `hi` minus its tail length. -/
theorem pairwise_idlt_bound :
    ∀ (fs : List ClauseRecord) (f0 : ClauseRecord) (n0 hi : Int),
      (f0 :: fs).Pairwise IdLt → idOf f0 = some n0 →
      (∀ r ∈ f0 :: fs, ∃ n, idOf r = some n ∧ n ≤ hi) →
      n0 + Int.ofNat fs.length ≤ hi := by
  intro fs
  induction fs with
  | nil =>
    intro f0 n0 hi _ h0 hb
    obtain ⟨n, hn, hle⟩ := hb f0 (List.mem_cons_self _ _)
    rw [h0] at hn
    injection hn with hn
    simp only [List.length_nil, Int.ofNat_eq_coe]
    omega
  | cons f1 fs ih =>
    intro f0 n0 hi hpw h0 hb
    obtain ⟨n1, h1, _⟩ := hb f1 (List.mem_cons_of_mem _ (List.mem_cons_self _ _))
    have hlt : n0 < n1 := by
      obtain ⟨m1, m2, ha1, ha2, hlt⟩ :=
        List.rel_of_pairwise_cons hpw (List.mem_cons_self _ _)
      rw [h0] at ha1
      injection ha1 with ha1
      rw [h1] at ha2
      injection ha2 with ha2
      omega
    have hih := ih f1 n1 hi (List.Pairwise.of_cons hpw) h1
      (fun r hr => hb r (List.mem_cons_of_mem _ hr))
    simp only [List.length_cons, Int.ofNat_eq_coe] at hih ⊢
    omega

theorem retryStrings_length :
    ∀ {l : List ClauseRecord} {rcs : List String},
      retryStrings l = .ok rcs → rcs.length ≤ l.length := by
  intro l
  induction l with
  | nil =>
    intro rcs h
    injection h with h
    subst h
    simp
  | cons r rs ih =>
    intro rcs h
    unfold retryStrings at h
    split at h
    · split at h
      · exact Except.noConfusion h
      · rename_i rest heq
        injection h with h
        subst h
        have hle := ih heq
        split <;> simp only [List.length_cons] <;> omega
    · split at h
      · exact Except.noConfusion h
      · have hle := ih h
        simp only [List.length_cons]
        omega

/-- Reconciliation keeps integer ids within the incoming range and sorts:
if the incoming batch is strictly id-increasing with ids in `[lo, hi]`, a
successful `retry_failed_clauses` yields a non-strictly sorted list with ids
still in `[lo, hi]` (the retried ids restart at the first failed id and, the
failed ids being strictly increasing, cannot escape the range). -/
theorem retry_ids {o : Oracle} (ho : OracleNoIdOverride o) {k : Nat}
    {results out : List ClauseRecord} {k2 : Nat} {lo hi : Int} {retries : Nat}
    (hpw : results.Pairwise IdLt)
    (hb : ∀ r ∈ results, ∃ n, idOf r = some n ∧ lo ≤ n ∧ n ≤ hi)
    (h : retry_failed_clauses o k results retries = .ok (out, k2)) :
    out.Pairwise IdLe ∧ ∀ r ∈ out, ∃ n, idOf r = some n ∧ lo ≤ n ∧ n ≤ hi := by
  have key : ∀ (L : List ClauseRecord) (kk : Nat),
      (∀ r ∈ L, ∃ n, idOf r = some n ∧ lo ≤ n ∧ n ≤ hi) →
      sortPath L kk = .ok (out, k2) →
      out.Pairwise IdLe ∧ ∀ r ∈ out, ∃ n, idOf r = some n ∧ lo ≤ n ∧ n ≤ hi := by
    intro L kk hbL hsp
    obtain ⟨hs, _⟩ := sortPath_ok hsp
    obtain ⟨res, h1, _, h3, h4⟩ :=
      sortByClauseID_sorted (fun r hr => (hbL r hr).imp (fun n hn => hn.1))
    rw [h1] at hs
    injection hs with hs
    subst hs
    exact ⟨h3, fun r hr => hbL r ((h4 r).mp hr)⟩
  have hmemfil : ∀ (p : ClauseRecord → Bool) (r : ClauseRecord),
      r ∈ results.filter p → r ∈ results :=
    fun p r hr => List.mem_of_mem_filter hr
  simp only [retry_failed_clauses, analyze_batch_fst, analyze_batch_snd] at h
  split at h
  · exact key _ _
      (fun r hr => hb r ((List.mem_append.mp hr).elim (hmemfil _ r) (hmemfil _ r))) h
  · rename_i f0 fs heqf
    rw [heqf] at h
    split at h
    · exact key _ _
        (fun r hr => hb r ((List.mem_append.mp hr).elim (hmemfil _ r) (fun h1 => by
          rw [← heqf] at h1; exact hmemfil _ r h1))) h
    · split at h
      · exact Except.noConfusion h
      · rename_i rcs heqs
        have hfpw : (f0 :: fs).Pairwise IdLt := by
          rw [← heqf]
          exact hpw.sublist (List.filter_sublist _)
        have hfm : ∀ r ∈ f0 :: fs, r ∈ results := by
          intro r hr
          rw [← heqf] at hr
          exact List.mem_of_mem_filter hr
        obtain ⟨n0, hn0, hlo0, hhi0⟩ := hb f0 (hfm f0 (List.mem_cons_self _ _))
        have hcount : n0 + Int.ofNat fs.length ≤ hi :=
          pairwise_idlt_bound fs f0 n0 hi hfpw hn0
            (fun r hr => ((hb r (hfm r hr)).imp (fun n hn => ⟨hn.1, hn.2.2⟩)))
        have hrlen : rcs.length ≤ fs.length + 1 := by
          simpa using retryStrings_length heqs
        split at h
        · rename_i sid2 heqid
          have hsid2 : sid2 = n0 := by
            rw [idOf_eq_some hn0] at heqid
            simp only [pyToIntKey] at heqid
            injection heqid with heqid
            omega
          have hret : ∀ r ∈ analyze_batch_records o k rcs sid2 3,
              ∃ n, idOf r = some n ∧ lo ≤ n ∧ n ≤ hi := by
            intro r hr
            obtain ⟨j, hj, hcid⟩ := (analyze_batch_ids ho k rcs sid2 3).1 r hr
            have hvl := validCleaned_length_le rcs
            refine ⟨sid2 + Int.ofNat j, by simp [idOf, hcid], ?_, ?_⟩
            · simp only [Int.ofNat_eq_coe]
              omega
            · simp only [Int.ofNat_eq_coe] at hcount ⊢
              omega
          exact key _ _ (fun r hr => (List.mem_append.mp hr).elim
            (fun h1 => hb r (hmemfil _ r h1)) (fun h1 => hret r h1)) h
        · split at h
          · have hret : ∀ r ∈ analyze_batch_records o k ([] : List String) 0 3,
                ∃ n, idOf r = some n ∧ lo ≤ n ∧ n ≤ hi := by
              intro r hr
              obtain ⟨j, hj, _⟩ := (analyze_batch_ids ho k [] 0 3).1 r hr
              simp [validCleaned] at hj
            exact key _ _ (fun r hr => (List.mem_append.mp hr).elim
              (fun h1 => hb r (hmemfil _ r h1)) (fun h1 => hret r h1)) h
          · exact Except.noConfusion h

theorem batchesAux_sorted {o : Oracle} (ho : OracleNoIdOverride o) {bs : Nat} :
    ∀ (fuel k : Nat) (cls : List String) (sid : Int) (out : List ClauseRecord) (k2 : Nat),
      batchesAux o bs fuel k cls sid = .ok (out, k2) →
      out.Pairwise IdLe ∧ ∀ r ∈ out, ∃ n, idOf r = some n ∧ sid ≤ n := by
  intro fuel
  induction fuel with
  | zero =>
    intro k cls sid out k2 h
    cases cls with
    | nil =>
      simp only [batchesAux] at h
      injection h with h
      rw [← ((Prod.mk.injEq _ _ _ _).mp h).1]
      exact ⟨List.Pairwise.nil, by simp⟩
    | cons c cs => exact Except.noConfusion h
  | succ fuel ih =>
    intro k cls sid out k2 h
    cases cls with
    | nil =>
      simp only [batchesAux] at h
      injection h with h
      rw [← ((Prod.mk.injEq _ _ _ _).mp h).1]
      exact ⟨List.Pairwise.nil, by simp⟩
    | cons c cs =>
      simp only [batchesAux, analyze_batch_fst, analyze_batch_snd] at h
      split at h
      · exact Except.noConfusion h
      · rename_i rr k2' hretry
        split at h
        · exact Except.noConfusion h
        · rename_i rest k3 hrec
          injection h with h
          obtain ⟨h1, _⟩ := (Prod.mk.injEq _ _ _ _).mp h
          obtain ⟨hbm, hbpw⟩ := analyze_batch_ids ho k ((c :: cs).take bs) sid 3
          have hbb : ∀ r ∈ analyze_batch_records o k ((c :: cs).take bs) sid 3,
              ∃ n, idOf r = some n ∧ sid ≤ n ∧ n ≤ sid + Int.ofNat bs - 1 := by
            intro r hr
            obtain ⟨j, hj, hcid⟩ := hbm r hr
            have hvl := validCleaned_length_le ((c :: cs).take bs)
            have htl : ((c :: cs).take bs).length ≤ bs := by
              rw [List.length_take]
              omega
            refine ⟨sid + Int.ofNat j, by simp [idOf, hcid], ?_, ?_⟩
            · simp only [Int.ofNat_eq_coe]
              omega
            · simp only [Int.ofNat_eq_coe]
              omega
          obtain ⟨hrrpw, hrrb⟩ := retry_ids ho hbpw hbb hretry
          obtain ⟨hrestpw, hrestb⟩ := ih _ _ _ _ _ hrec
          constructor
          · rw [← h1]
            refine (List.pairwise_append).mpr ⟨hrrpw, hrestpw, ?_⟩
            intro a ha b hb
            obtain ⟨na, hna, _, hahi⟩ := hrrb a ha
            obtain ⟨nb, hnb, hblo⟩ := hrestb b hb
            refine ⟨na, nb, hna, hnb, ?_⟩
            simp only [Int.ofNat_eq_coe] at hahi hblo
            omega
          · rw [← h1]
            intro r hr
            rcases List.mem_append.mp hr with h3 | h3
            · obtain ⟨n, hn, hlo, _⟩ := hrrb r h3
              exact ⟨n, hn, hlo⟩
            · obtain ⟨n, hn, hlo⟩ := hrestb r h3
              refine ⟨n, hn, ?_⟩
              simp only [Int.ofNat_eq_coe] at hlo
              omega

/-- C1 (amended): for every input list, every batchSize ≥ 1 and every startId,
whenever the model's decoded responses never carry a "Clause ID" key (the
allowed-field overlay would let such a key overwrite the assigned id) and the
pipeline returns successfully, the output of `analyze_all_batches` is sorted
ascending — non-strictly — by Clause ID, all ids being integers at least
startId.  Uniqueness of Clause IDs does NOT hold in general: when a batch's
failed records are non-contiguous, the single retry reassigns ids contiguously
from the first failed record's id and can duplicate an ok record's id (see the
counterexample). -/
theorem analyze_all_batches_sorted_ids :
    ∀ (o : Oracle), OracleNoIdOverride o →
    ∀ (k : Nat) (clauses : List String) (sid : Int) (bs : Nat), 1 ≤ bs →
    ∀ (out : List ClauseRecord) (k2 : Nat),
      analyze_all_batches o k clauses sid bs = .ok (out, k2) →
      out.Pairwise IdLe ∧ ∀ r ∈ out, ∃ n, idOf r = some n ∧ sid ≤ n := by
  intro o ho k clauses sid bs _hbs out k2 h
  unfold analyze_all_batches at h
  split at h
  · exact Except.noConfusion h
  · exact batchesAux_sorted ho clauses.length k clauses sid out k2 h

theorem analyze_all_batches_sorted_ids_witness :
    ([baseRecord 1 wClause] : List ClauseRecord).Pairwise IdLe ∧
    ∃ n, idOf (baseRecord 1 wClause) = some n ∧ (1 : Int) ≤ n :=
  have hrun := analyze_all_batches_sorted_ids oFailAll
    (fun _ _ _ hp => AttemptOutcome.noConfusion hp)
    0 [wClause] 1 6 (by omega) [baseRecord 1 wClause] 2 rfl
  ⟨hrun.1, hrun.2 (baseRecord 1 wClause) (List.mem_singleton.mpr rfl)⟩
